import Mathlib

/-!
Verification development for the MonteCarloCFR engine
(`leduc/cfr/mccfr.py` of the pluribus repository).

The repository sources at hand are `leduc/cfr/mccfr.py` and
`leduc/cfr/main.py`.  The `InfoSet` class (`leduc/cfr/node.py`), the game
state classes and `VanillaCFR` are external collaborators that are not part
of these two files; where the algorithms depend on them they are modelled
from the spec (sections 3, 4.1 and 6) and marked as such.

Machine reals (numpy float64) are modelled by the rationals; utility
vectors (numpy arrays of length `num_players`) by lists of rationals; the
stream of random draws (`random.random`, `random.choices`) by an explicit
tape of rationals in `[0,1)`; Python dicts by association lists (for the
per-player node dictionaries, whose iteration order matters to `discount`)
or by total functions (for the `defaultdict` strategy map of the subgame
solver).
-/

namespace Pluribus

/-- Action labels (`'F'`, `'C'`, `'R'`, `'P'`, `'B'`, `'1'`..`'4'`). -/
abbrev Action := String

/-- Models `np.zeros(n)`. -/
def vecZero (n : ℕ) : List ℚ := List.replicate n 0

/-- Pointwise addition of utility vectors (`+=` on numpy arrays). -/
def vecAdd (v w : List ℚ) : List ℚ := List.zipWith (· + ·) v w

/-- Scalar multiplication of a utility vector (`array * scalar`). -/
def vecScale (c : ℚ) (v : List ℚ) : List ℚ := v.map (fun x => x * c)

/-- Modelled from the spec: the `InfoSet` class of `leduc/cfr/node.py` is not
among the source files; per spec section 3 it carries `regret_sum` and
`strategy_sum` dicts keyed by the action alphabet it was constructed with,
and an `is_frozen` flag used by the subgame solver. -/
structure InfoSet where
  actions : List Action
  regret_sum : Action → ℚ
  strategy_sum : Action → ℚ
  is_frozen : Bool

/-- Models `InfoSet(self.actions)`: fresh accumulators, all zero, not frozen. -/
def InfoSet.fresh (acts : List Action) : InfoSet :=
  ⟨acts, fun _ => 0, fun _ => 0, false⟩

/-- Positive part `max(r, 0)` used by regret matching. -/
def positivePart (q : ℚ) : ℚ := max q 0

/-- Modelled from the spec (section 4.1): `InfoSet.strategy(valid_actions)`,
regret matching restricted to the supplied legal actions with a uniform
fallback when no action has positive regret. -/
def InfoSet.strategy (n : InfoSet) (valid : List Action) : Action → ℚ :=
  let S := (valid.map (fun a => positivePart (n.regret_sum a))).sum
  if 0 < S then fun a => positivePart (n.regret_sum a) / S
  else fun _ => 1 / (valid.length : ℚ)

/-- Modelled from the spec (section 4.1): `InfoSet.avg_strategy()`, the
time-averaged strategy `strategy_sum[a] / Σ strategy_sum` over the info
set's own action keys, with a uniform fallback when the total is zero. -/
def InfoSet.avg_strategy (n : InfoSet) : Action → ℚ :=
  let S := (n.actions.map n.strategy_sum).sum
  if S = 0 then fun _ => 1 / (n.actions.length : ℚ)
  else fun a => n.strategy_sum a / S

/-- A per-player information-set dictionary (`self.node_map[player]`),
as an insertion-ordered association list, mirroring a Python dict. -/
abbrev InfoDict := List (String × InfoSet)

/-- Models `self.node_map`: player index to info-set dictionary.  Players never
visited map to the empty dictionary. -/
abbrev NodeMap := ℕ → InfoDict

/-- Dict lookup: first entry with the given key. -/
def dictLookup : InfoDict → String → Option InfoSet
  | [], _ => none
  | e :: rest, k => if e.1 = k then some e.2 else dictLookup rest k

/-- Dict insertion (a fresh key appends at the end, as in CPython). -/
def dictInsert (d : InfoDict) (k : String) (v : InfoSet) : InfoDict :=
  d ++ [(k, v)]

/-- In-place update of the entry at a key (`node.regret_sum[a] += ...`). -/
def dictModify : InfoDict → String → (InfoSet → InfoSet) → InfoDict
  | [], _, _ => []
  | e :: rest, k, f =>
    if e.1 = k then (e.1, f e.2) :: dictModify rest k f else e :: dictModify rest k f

/-- Models `player_nodes.setdefault(info_set, InfoSet(self.actions))`: insert a
fresh info set if the key is absent, otherwise leave the map unchanged. -/
def touch (acts : List Action) (nm : NodeMap) (p : ℕ) (i : String) : NodeMap :=
  match dictLookup (nm p) i with
  | some _ => nm
  | none => fun q => if q = p then dictInsert (nm p) i (InfoSet.fresh acts) else nm q

/-- Read the node at `(p, i)` (after `touch` the key is always present). -/
def getNode (acts : List Action) (nm : NodeMap) (p : ℕ) (i : String) : InfoSet :=
  (dictLookup (nm p) i).getD (InfoSet.fresh acts)

/-- Mutate the node at `(p, i)` through `f`. -/
def setNode (nm : NodeMap) (p : ℕ) (i : String) (f : InfoSet → InfoSet) : NodeMap :=
  fun q => if q = p then dictModify (nm q) i f else nm q

/-- The finite game tree presented by the external `State` collaborator
(spec section 6): a state is terminal with a payoff vector, or a decision
point with an acting player, an information-set label, and one child per
legal action.  `state.valid_actions` is the list of child labels in order,
and `state.add(player, a)` selects the corresponding child. -/
inductive GameTree where
  | terminal (payoff : List ℚ)
  | decision (turn : ℕ) (iset : String) (children : List (Action × GameTree))

/-- The stream of random draws, each in `[0,1)`. -/
abbrev Tape := List ℚ

def tapeHead (tape : Tape) : ℚ := tape.headD 0

def tapeTail (tape : Tape) : Tape := tape.tail

/-- Models `random.choices(actions, weights=prob)[0]` on a list of labelled
children: walk the cumulative weights and return the first child whose
cumulative weight exceeds the draw; the last child is the fallback. -/
def chosenPair (w : Action → ℚ) : List (Action × GameTree) → ℚ → Option (Action × GameTree)
  | [], _ => none
  | [p], _ => some p
  | p :: q :: rest, u => if u < w p.1 then some p else chosenPair w (q :: rest) (u - w p.1)

/-- Models `random.choices(actions, weights=prob)[0]` on plain action labels. -/
def weightedChoice (w : Action → ℚ) : List Action → ℚ → Action
  | [], _ => ""
  | [a], _ => a
  | a :: b :: rest, u => if u < w a then a else weightedChoice w (b :: rest) (u - w a)

/-- Models `self.regret_minimum` (set in `MonteCarloCFR.__init__`). -/
def regret_minimum : ℚ := -300000

/-- Models `self.strategy_interval`. -/
def strategy_interval : ℕ := 100

/-- Models `self.prune_threshold`. -/
def prune_threshold : ℕ := 200

/-- Models `self.discount_interval`. -/
def discount_interval : ℕ := 100

/-- Models `self.lcfr_threshold`. -/
def lcfr_threshold : ℕ := 400

/-- Models `self.continuation = set(('1','2','3','4'))`. -/
def continuation : List Action := ["1", "2", "3", "4"]

/-- Models `node.regret_sum[a] += delta`. -/
def bumpRegret (a : Action) (delta : ℚ) (n : InfoSet) : InfoSet :=
  { n with regret_sum := fun b => if b = a then n.regret_sum b + delta else n.regret_sum b }

/-- Models `node.strategy_sum[a] += 1`. -/
def bumpStrategySum (a : Action) (n : InfoSet) : InfoSet :=
  { n with strategy_sum := fun b => if b = a then n.strategy_sum b + 1 else n.strategy_sum b }

/-- One record per legal action of the traversing-player loop of `mccfr`:
the action, whether it was explored (`explored.add(a)`), and the child's
full utility vector (`calculated_util`; zero when skipped, matching the
`utilities` dict initialised to `0`). -/
abbrev ExploreResults := List (Action × Bool × List ℚ)

/-- Whether the loop explored action `a` (`a in explored`). -/
def isExplored : ExploreResults → Action → Bool
  | [], _ => false
  | r :: rest, a => if r.1 = a then r.2.1 else isExplored rest a

/-- Models `utilities[a]`: the explored child's utility for the acting player,
`0` for a skipped action. -/
def utilAt (turn : ℕ) : ExploreResults → Action → ℚ
  | [], _ => 0
  | r :: rest, a =>
    if r.1 = a then (if r.2.1 then r.2.2.getD turn 0 else 0) else utilAt turn rest a

/-- Models `expected_value`: accumulated inside the loop as
`expected_value += calculated_util * strategy[a]`, explored actions only. -/
def evAccum (n : ℕ) (strat : Action → ℚ) (results : ExploreResults) : List ℚ :=
  results.foldl
    (fun acc r => if r.2.1 then vecAdd acc (vecScale (strat r.1) r.2.2) else acc)
    (vecZero n)

/-- The second loop of `mccfr`: for every legal action, unless pruning
excluded it from `explored`, add `utilities[a] - expected_value[curr_player]`
to its cumulative regret. -/
def applyRegrets (prune : Bool) (turn : ℕ) (iset : String) (valid : List Action)
    (results : ExploreResults) (ev : List ℚ) (nm : NodeMap) : NodeMap :=
  valid.foldl
    (fun m a =>
      if prune ∧ ¬ isExplored results a then m
      else setNode m turn iset (bumpRegret a (utilAt turn results a - ev.getD turn 0)))
    nm

section Engine

variable (acts : List Action) (numPlayers : ℕ)

mutual

/-- Models `MonteCarloCFR.mccfr(player, state, prune)`: external-sampling MCCFR.
Terminal states return their payoff; at the traversing player's nodes every
legal action is walked (skipping, under pruning, actions whose cumulative
regret is at or below the pruning floor), regrets are updated for explored
actions; at all other nodes one action is sampled from the instantaneous
strategy and the traversal recurses into that child only.  Returns the
utility vector together with the mutated node map and the remaining
random tape. -/
def mccfr (player : ℕ) (prune : Bool) :
    GameTree → NodeMap → Tape → List ℚ × NodeMap × Tape
  | .terminal payoff, nm, tape => (payoff, nm, tape)
  | .decision turn iset children, nm, tape =>
    let nm1 := touch acts nm turn iset
    let node := getNode acts nm1 turn iset
    let valid := children.map Prod.fst
    let strat := node.strategy valid
    if turn = player then
      match mccfrExplore player prune turn iset children nm1 tape with
      | (results, nm2, tape2) =>
        let ev := evAccum numPlayers strat results
        (ev, applyRegrets prune turn iset valid results ev nm2, tape2)
    else
      mccfrSample player prune strat children (tapeHead tape) nm1 (tapeTail tape)

/-- The per-action loop of `mccfr` at a traversing-player node.  With
pruning on, an action whose cumulative regret (read from the node map at
the moment the action comes up) is not above `regret_minimum` is skipped:
no recursion, no node-map change, no tape consumption. -/
def mccfrExplore (player : ℕ) (prune : Bool) (turn : ℕ) (iset : String) :
    List (Action × GameTree) → NodeMap → Tape → ExploreResults × NodeMap × Tape
  | [], nm, tape => ([], nm, tape)
  | (a, child) :: rest, nm, tape =>
    if prune ∧ ¬ (regret_minimum < (getNode acts nm turn iset).regret_sum a) then
      match mccfrExplore player prune turn iset rest nm tape with
      | (rs, nm2, tape2) => ((a, false, vecZero numPlayers) :: rs, nm2, tape2)
    else
      match mccfr player prune child nm tape with
      | (u, nm1, tape1) =>
        match mccfrExplore player prune turn iset rest nm1 tape1 with
        | (rs, nm2, tape2) => ((a, true, u) :: rs, nm2, tape2)

/-- The opponent/chance branch of `mccfr`: walk the children along the
cumulative weights of the sampled draw and recurse into the single chosen
child (`random.choices` then one recursive call). -/
def mccfrSample (player : ℕ) (prune : Bool) (strat : Action → ℚ) :
    List (Action × GameTree) → ℚ → NodeMap → Tape → List ℚ × NodeMap × Tape
  | [], _, nm, tape => (vecZero numPlayers, nm, tape)
  | [(_, child)], _, nm, tape => mccfr player prune child nm tape
  | (a, child) :: q :: rest, u, nm, tape =>
    if u < strat a then mccfr player prune child nm tape
    else mccfrSample player prune strat (q :: rest) (u - strat a) nm tape

end

mutual

/-- Models `MonteCarloCFR.update_strategy(player, state)`: at nodes acted by
`player`, sample one action from the instantaneous strategy, add `1` to
its `strategy_sum`, and recurse into that child only; at every other
node recurse into every legal action without touching any accumulator. -/
def update_strategy (player : ℕ) :
    GameTree → NodeMap → Tape → NodeMap × Tape
  | .terminal _, nm, tape => (nm, tape)
  | .decision turn iset children, nm, tape =>
    let nm1 := touch acts nm turn iset
    let node := getNode acts nm1 turn iset
    let valid := children.map Prod.fst
    let strat := node.strategy valid
    if turn = player then
      updateStrategySample player turn iset strat children (tapeHead tape) nm1 (tapeTail tape)
    else
      updateStrategyAll player children nm1 tape

/-- The traversing-player branch of `update_strategy`: walk the children
along the cumulative weights of the draw; at the chosen child, bump its
action's `strategy_sum` and recurse into that child alone. -/
def updateStrategySample (player turn : ℕ) (iset : String) (strat : Action → ℚ) :
    List (Action × GameTree) → ℚ → NodeMap → Tape → NodeMap × Tape
  | [], _, nm, tape => (nm, tape)
  | [(a, child)], _, nm, tape =>
    update_strategy player child (setNode nm turn iset (bumpStrategySum a)) tape
  | (a, child) :: q :: rest, u, nm, tape =>
    if u < strat a then
      update_strategy player child (setNode nm turn iset (bumpStrategySum a)) tape
    else updateStrategySample player turn iset strat (q :: rest) (u - strat a) nm tape

/-- The other-player branch of `update_strategy`: recurse into every
legal action in order. -/
def updateStrategyAll (player : ℕ) :
    List (Action × GameTree) → NodeMap → Tape → NodeMap × Tape
  | [], nm, tape => (nm, tape)
  | (_, child) :: rest, nm, tape =>
    match update_strategy player child nm tape with
    | (nm1, tape1) => updateStrategyAll player rest nm1 tape1

end

end Engine

/-- Scale both accumulator dicts of an info set by `d`
(`{key: value * discount for key, value in ...}`). -/
def scaleInfoSet (d : ℚ) (n : InfoSet) : InfoSet :=
  { n with
    regret_sum := fun a => n.regret_sum a * d,
    strategy_sum := fun a => n.strategy_sum a * d }

/-- The inner scaling loop of `MonteCarloCFR.discount`: for every player
index below `num_players`, replace every node's `regret_sum` and
`strategy_sum` by their scaled copies. -/
def discountScale (numPlayers : ℕ) (d : ℚ) (nm : NodeMap) : NodeMap :=
  fun p => if p < numPlayers then (nm p).map (fun e => (e.1, scaleInfoSet d e.2)) else nm p

/-- The factor `(t / discount_interval) / ((t / discount_interval) + 1)`. -/
def discountFactor (t : ℕ) : ℚ :=
  ((t : ℚ) / (discount_interval : ℚ)) / ((t : ℚ) / (discount_interval : ℚ) + 1)

/-- Models `MonteCarloCFR.discount(t)`. -/
def discount (numPlayers : ℕ) (t : ℕ) (nm : NodeMap) : NodeMap :=
  discountScale numPlayers (discountFactor t) nm

section Evaluation

variable (acts : List Action) (numPlayers : ℕ)

mutual

/-- Models `MonteCarloCFR.traverse_tree(state)`: expected utility of a state
under the average strategy.  A missing information set is inserted fresh
by `setdefault` and its `avg_strategy` is read; every legal action is
recursed into and weighted by its average-strategy probability.  All the
operations in the `try` body are total (in particular `avg_strategy` has
the uniform fallback of spec section 4.1), so the `except` clause that
re-raises as an insufficient-training `UserWarning` is unreachable and
the function is modelled as total. -/
def traverse_tree : GameTree → NodeMap → List ℚ × NodeMap
  | .terminal payoff, nm => (payoff, nm)
  | .decision turn iset children, nm =>
    let nm1 := touch acts nm turn iset
    let node := getNode acts nm1 turn iset
    let strat := node.avg_strategy
    traverseChildren strat children (vecZero numPlayers) nm1

/-- The accumulation loop of `traverse_tree`:
`util += self.traverse_tree(new_state) * strategy[a]`. -/
def traverseChildren (strat : Action → ℚ) :
    List (Action × GameTree) → List ℚ → NodeMap → List ℚ × NodeMap
  | [], acc, nm => (acc, nm)
  | (a, child) :: rest, acc, nm =>
    match traverse_tree child nm with
    | (u, nm1) => traverseChildren strat rest (vecAdd acc (vecScale (strat a) u)) nm1

end

end Evaluation

/-- The index-ordered choices of one element from a list together with
the remaining elements (the branching step of `itertools.permutations`). -/
def pickEach : List ℕ → List (ℕ × List ℕ)
  | [] => []
  | x :: rest => (x, rest) :: (pickEach rest).map (fun p => (p.1, x :: p.2))

/-- Models `itertools.permutations(cards, r)`: all length-`r` ordered selections
of distinct positions, in index order. -/
def kperms : ℕ → List ℕ → List (List ℕ)
  | 0, _ => [[]]
  | r + 1, cs => (pickEach cs).flatMap (fun p => (kperms r p.2).map (fun t => p.1 :: t))

/-- Models `MonteCarloCFR.expected_utility(cards)`: deduplicate the length-
`num_cards` permutations of the card list (`set(permutations(...))`),
traverse the tree once for each dealing under the average strategy
(threading the node map through, since `traverse_tree` mutates it),
and divide the accumulated utility vector by the number of dealings. -/
def expected_utility (acts : List Action) (numPlayers : ℕ)
    (mkState : List ℕ → GameTree) (numCards : ℕ) (cards : List ℕ) (nm : NodeMap) :
    List ℚ × NodeMap :=
  let combos := (kperms numCards cards).dedup
  let res := combos.foldl
    (fun (st : List ℚ × NodeMap) c =>
      match traverse_tree acts numPlayers (mkState c) st.2 with
      | (u, nm1) => (vecAdd st.1 u, nm1))
    (vecZero numPlayers, nm)
  (vecScale (1 / (combos.length : ℚ)) res.1, res.2)

/-- The external game state wrapped by a subgame tree node
(spec sections 3 and 6). -/
structure SState where
  is_terminal : Bool
  payoff : List ℚ
  turn : ℕ
  iset : String
  valid_actions : List Action

/-- A node of the pre-built partial tree of the subgame solver: a state, a
leaf flag, the caller-supplied continuation value function
(`tree_node.value(curr_player, self.node_map, action)` with the trained
base node map already applied), and the explicit child mapping.  At
non-leaf nodes the child labels list the state's legal actions in order. -/
inductive STree where
  | mk (state : SState) (is_leaf : Bool) (leafValue : Action → List ℚ)
       (children : List (Action × STree))

/-- Models `self.strategy`, a `defaultdict` of `defaultdict(InfoSet)`: reading a
never-written entry yields a fresh info set, so the map is total. -/
abbrev SMap := ℕ → String → InfoSet

/-- Point update of the subgame strategy map. -/
def supdate (sm : SMap) (p : ℕ) (i : String) (f : InfoSet → InfoSet) : SMap :=
  fun q j => if q = p ∧ j = i then f (sm q j) else sm q j

/-- The message of the `NotImplementedError` raised at frozen info sets. -/
def frozenMsg : String := "Frozen action for infoset"

/-- The leaf loop of `subgame_mccfr` at a traversing-player leaf: each
continuation action is valued by the leaf's value function instead of a
recursive call; pruning skips actions at or below the regret floor. -/
def subgameLeafExplore (numPlayers : ℕ) (prune : Bool) (node : InfoSet)
    (lv : Action → List ℚ) : List Action → ExploreResults
  | [] => []
  | a :: rest =>
    if prune ∧ ¬ (regret_minimum < node.regret_sum a) then
      (a, false, vecZero numPlayers) :: subgameLeafExplore numPlayers prune node lv rest
    else (a, true, lv a) :: subgameLeafExplore numPlayers prune node lv rest

/-- The second loop of `subgame_mccfr`, on the subgame strategy map. -/
def applySRegrets (prune : Bool) (turn : ℕ) (iset : String) (valid : List Action)
    (results : ExploreResults) (ev : List ℚ) (sm : SMap) : SMap :=
  valid.foldl
    (fun m a =>
      if prune ∧ ¬ isExplored results a then m
      else supdate m turn iset (bumpRegret a (utilAt turn results a - ev.getD turn 0)))
    sm

section Subgame

variable (numPlayers : ℕ)

mutual

/-- Models `MonteCarloCFR.subgame_mccfr(player, tree_node, prune)`: like `mccfr`
but over the pre-built partial tree and the subgame strategy map; at a
leaf the continuation action set replaces the legal actions and the
leaf's value function replaces recursion.  Any encounter with a frozen
info set raises `NotImplementedError` (modelled as an error result that
carries the strategy map as mutated so far). -/
def subgame_mccfr (player : ℕ) (prune : Bool) :
    STree → SMap → Tape → Except String (List ℚ) × SMap × Tape
  | .mk st leaf lv children, sm, tape =>
    if st.is_terminal then (.ok st.payoff, sm, tape)
    else
      let node := sm st.turn st.iset
      if st.turn = player then
        if node.is_frozen then (.error frozenMsg, sm, tape)
        else
          let valid := if leaf then continuation else st.valid_actions
          let strat := node.strategy valid
          if leaf then
            let results := subgameLeafExplore numPlayers prune node lv valid
            let ev := evAccum numPlayers strat results
            (.ok ev, applySRegrets prune st.turn st.iset valid results ev sm, tape)
          else
            match subgameExplore player prune st.turn st.iset children sm tape with
            | (.ok results, sm2, tape2) =>
              let ev := evAccum numPlayers strat results
              (.ok ev, applySRegrets prune st.turn st.iset valid results ev sm2, tape2)
            | (.error e, sm2, tape2) => (.error e, sm2, tape2)
      else
        if node.is_frozen then (.error frozenMsg, sm, tape)
        else
          let valid := if leaf then continuation else st.valid_actions
          let strat := node.strategy valid
          if leaf then
            (.ok (lv (weightedChoice strat continuation (tapeHead tape))), sm, tapeTail tape)
          else
            subgameSample player prune strat children (tapeHead tape) sm (tapeTail tape)

/-- The per-action loop of `subgame_mccfr` at a non-leaf traversing-player
node; a raised frozen-node error aborts the loop and propagates. -/
def subgameExplore (player : ℕ) (prune : Bool) (turn : ℕ) (iset : String) :
    List (Action × STree) → SMap → Tape → Except String ExploreResults × SMap × Tape
  | [], sm, tape => (.ok [], sm, tape)
  | (a, child) :: rest, sm, tape =>
    if prune ∧ ¬ (regret_minimum < (sm turn iset).regret_sum a) then
      match subgameExplore player prune turn iset rest sm tape with
      | (.ok rs, sm2, tape2) => (.ok ((a, false, vecZero numPlayers) :: rs), sm2, tape2)
      | (.error e, sm2, tape2) => (.error e, sm2, tape2)
    else
      match subgame_mccfr player prune child sm tape with
      | (.ok u, sm1, tape1) =>
        match subgameExplore player prune turn iset rest sm1 tape1 with
        | (.ok rs, sm2, tape2) => (.ok ((a, true, u) :: rs), sm2, tape2)
        | (.error e, sm2, tape2) => (.error e, sm2, tape2)
      | (.error e, sm1, tape1) => (.error e, sm1, tape1)

/-- The opponent branch of `subgame_mccfr` at a non-leaf node: sample one
child along the cumulative weights and recurse into it alone. -/
def subgameSample (player : ℕ) (prune : Bool) (strat : Action → ℚ) :
    List (Action × STree) → ℚ → SMap → Tape → Except String (List ℚ) × SMap × Tape
  | [], _, sm, tape => (.ok (vecZero numPlayers), sm, tape)
  | [(_, child)], _, sm, tape => subgame_mccfr player prune child sm tape
  | (a, child) :: q :: rest, u, sm, tape =>
    if u < strat a then subgame_mccfr player prune child sm tape
    else subgameSample player prune strat (q :: rest) (u - strat a) sm tape

end

mutual

/-- Models `MonteCarloCFR.subgame_update_strategy(player, tree_node)`: strategy-sum
accumulation over the partial tree.  At a traversing-player node one
action is sampled and its `strategy_sum` bumped (recursing only when the
node is not a leaf); at an opponent node, a leaf also samples and bumps
the opponent's own `strategy_sum`, while a non-leaf recurses into every
legal action.  A frozen info set raises on every path. -/
def subgame_update_strategy (player : ℕ) :
    STree → SMap → Tape → Except String Unit × SMap × Tape
  | .mk st leaf _ children, sm, tape =>
    if st.is_terminal then (.ok (), sm, tape)
    else
      let node := sm st.turn st.iset
      if st.turn = player then
        if node.is_frozen then (.error frozenMsg, sm, tape)
        else
          if leaf then
            let strat := node.strategy continuation
            let chosen := weightedChoice strat continuation (tapeHead tape)
            (.ok (), supdate sm st.turn st.iset (bumpStrategySum chosen), tapeTail tape)
          else
            let strat := node.strategy st.valid_actions
            subgameUpdSample player st.turn st.iset strat children (tapeHead tape) sm
              (tapeTail tape)
      else
        if node.is_frozen then (.error frozenMsg, sm, tape)
        else
          if leaf then
            let strat := node.strategy continuation
            let chosen := weightedChoice strat continuation (tapeHead tape)
            (.ok (), supdate sm st.turn st.iset (bumpStrategySum chosen), tapeTail tape)
          else
            subgameUpdAll player children sm tape

/-- The traversing-player non-leaf branch of `subgame_update_strategy`:
bump the chosen action's `strategy_sum`, then recurse into its child. -/
def subgameUpdSample (player turn : ℕ) (iset : String) (strat : Action → ℚ) :
    List (Action × STree) → ℚ → SMap → Tape → Except String Unit × SMap × Tape
  | [], _, sm, tape => (.ok (), sm, tape)
  | [(a, child)], _, sm, tape =>
    subgame_update_strategy player child (supdate sm turn iset (bumpStrategySum a)) tape
  | (a, child) :: q :: rest, u, sm, tape =>
    if u < strat a then
      subgame_update_strategy player child (supdate sm turn iset (bumpStrategySum a)) tape
    else subgameUpdSample player turn iset strat (q :: rest) (u - strat a) sm tape

/-- The opponent non-leaf branch of `subgame_update_strategy`: recurse
into every legal action, propagating a raised error. -/
def subgameUpdAll (player : ℕ) :
    List (Action × STree) → SMap → Tape → Except String Unit × SMap × Tape
  | [], sm, tape => (.ok (), sm, tape)
  | (_, child) :: rest, sm, tape =>
    match subgame_update_strategy player child sm tape with
    | (.ok _, sm1, tape1) => subgameUpdAll player rest sm1 tape1
    | (.error e, sm1, tape1) => (.error e, sm1, tape1)

end

end Subgame

/-- The per-run mutable state of `MonteCarloCFR.train`: the card list
(shuffled in place), the node map of accumulators, and the random tape. -/
structure TrainState where
  cards : List ℕ
  nm : NodeMap
  tape : Tape

section Train

variable (acts : List Action) (numPlayers : ℕ)

/-- The per-player body of one training iteration (`train` lines 67-78):
optionally run `update_strategy` on a strategy-interval iteration, then
run `mccfr`, pruned with probability `0.95` once past the prune
threshold. -/
def trainPlayers (mkState : List ℕ → GameTree) (t : ℕ) (cards : List ℕ) :
    List ℕ → NodeMap → Tape → NodeMap × Tape
  | [], nm, tape => (nm, tape)
  | player :: rest, nm, tape =>
    let s1 :=
      if t % strategy_interval = 0 then
        update_strategy acts player (mkState cards) nm tape
      else (nm, tape)
    let s2 :=
      if prune_threshold < t then
        let u := tapeHead s1.2
        let tp := tapeTail s1.2
        if u < 1/20 then
          let r := mccfr acts numPlayers player false (mkState cards) s1.1 tp
          (r.2.1, r.2.2)
        else
          let r := mccfr acts numPlayers player true (mkState cards) s1.1 tp
          (r.2.1, r.2.2)
      else
        let r := mccfr acts numPlayers player false (mkState cards) s1.1 s1.2
        (r.2.1, r.2.2)
    trainPlayers mkState t cards rest s2.1 s2.2

/-- One iteration of the training loop of `MonteCarloCFR.train`: shuffle
the cards (the shuffle itself is the external `random.shuffle`, modelled
as a caller-supplied permutation driven by one draw), run the per-player
updates, and at the end discount exactly when
`t < lcfr_threshold and t % discount_interval == 0`. -/
def trainIter (mkState : List ℕ → GameTree) (shuffleFn : ℚ → List ℕ → List ℕ)
    (t : ℕ) (st : TrainState) : TrainState :=
  let cards := shuffleFn (tapeHead st.tape) st.cards
  let s := trainPlayers acts numPlayers mkState t cards (List.range numPlayers) st.nm
    (tapeTail st.tape)
  let nm2 :=
    if t < lcfr_threshold ∧ t % discount_interval = 0 then discount numPlayers t s.1
    else s.1
  ⟨cards, nm2, s.2⟩

/-- The iteration loop `for t in range(1, iterations + 1)` of `train`. -/
def trainLoop (mkState : List ℕ → GameTree) (shuffleFn : ℚ → List ℕ → List ℕ)
    (iterations : ℕ) (st : TrainState) : TrainState :=
  (List.range' 1 iterations).foldl
    (fun s t => trainIter acts numPlayers mkState shuffleFn t s) st

/-- The iterations at which `train` invokes `discount`, read off the
guard on `train` lines 80-81. -/
def discountCalls (iterations : ℕ) : List ℕ :=
  (List.range' 1 iterations).filter
    (fun t => decide (t < lcfr_threshold ∧ t % discount_interval = 0))

end Train

mutual

/-- Whether the information set `(p, i)` labels any decision node of the
tree: the only entries of the node map a traversal of the tree can touch. -/
def occursIn (p : ℕ) (i : String) : GameTree → Bool
  | .terminal _ => false
  | .decision turn iset children =>
    (decide (turn = p) && decide (iset = i)) || occursInList p i children

def occursInList (p : ℕ) (i : String) : List (Action × GameTree) → Bool
  | [] => false
  | c :: rest => occursIn p i c.2 || occursInList p i rest

end

/-- The strategy-weighted sum of the child utility vectors over the
explored actions only (the spec reading of `expected_value`). -/
def evExplored (n : ℕ) (strat : Action → ℚ) (results : ExploreResults) : List ℚ :=
  (results.filter (fun r => r.2.1)).foldl
    (fun acc r => vecAdd acc (vecScale (strat r.1) r.2.2))
    (vecZero n)

/-- Sum of a list of utility vectors. -/
def vecSum (n : ℕ) (l : List (List ℚ)) : List ℚ := l.foldl vecAdd (vecZero n)

/-- The per-assignment utility vectors produced by running `traverse_tree`
on each dealing in turn, threading the node map exactly as
`expected_utility` does. -/
def traverseList (acts : List Action) (numPlayers : ℕ) (mkState : List ℕ → GameTree) :
    List (List ℕ) → NodeMap → List (List ℚ) × NodeMap
  | [], nm => ([], nm)
  | c :: rest, nm =>
    match traverse_tree acts numPlayers (mkState c) nm with
    | (u, nm1) =>
      match traverseList acts numPlayers mkState rest nm1 with
      | (us, nm2) => (u :: us, nm2)

/-! ### Dictionary and node-map lemmas -/

theorem dictLookup_modify_self (d : InfoDict) (k : String) (f : InfoSet → InfoSet) :
    dictLookup (dictModify d k f) k = (dictLookup d k).map f := by
  induction d with
  | nil => simp [dictLookup, dictModify]
  | cons e rest ih =>
    by_cases h : e.1 = k
    · simp [dictModify, dictLookup, h]
    · simp [dictModify, dictLookup, h, ih]

theorem dictLookup_modify_ne (d : InfoDict) (k k' : String) (f : InfoSet → InfoSet)
    (h : k' ≠ k) : dictLookup (dictModify d k f) k' = dictLookup d k' := by
  induction d with
  | nil => simp [dictModify]
  | cons e rest ih =>
    by_cases he : e.1 = k
    · simp [dictModify, dictLookup, he, Ne.symm h, ih]
    · by_cases he' : e.1 = k'
      · simp [dictModify, dictLookup, he, he', h]
      · simp [dictModify, dictLookup, he, he', ih]

theorem dictLookup_insert_of_none (d : InfoDict) (k : String) (v : InfoSet)
    (h : dictLookup d k = none) : dictLookup (dictInsert d k v) k = some v := by
  induction d with
  | nil => simp [dictInsert, dictLookup]
  | cons e rest ih =>
    by_cases he : e.1 = k
    · simp [dictLookup, he] at h
    · simp only [dictLookup, he, if_neg, ite_false] at h
      simpa [dictInsert, dictLookup, he] using ih h

theorem dictLookup_insert_ne (d : InfoDict) (k k' : String) (v : InfoSet)
    (h : k' ≠ k) : dictLookup (dictInsert d k v) k' = dictLookup d k' := by
  induction d with
  | nil => simp [dictInsert, dictLookup, Ne.symm h]
  | cons e rest ih =>
    by_cases he : e.1 = k'
    · simp [dictInsert, dictLookup, he]
    · simpa [dictInsert, dictLookup, he] using ih

theorem touch_lookup_self (acts : List Action) (nm : NodeMap) (p : ℕ) (i : String) :
    dictLookup ((touch acts nm p i) p) i
      = some ((dictLookup (nm p) i).getD (InfoSet.fresh acts)) := by
  unfold touch
  cases h : dictLookup (nm p) i with
  | some v => simp [h]
  | none => simp [h, dictLookup_insert_of_none _ _ _ h]

theorem getNode_touch (acts : List Action) (nm : NodeMap) (p : ℕ) (i : String) :
    getNode acts (touch acts nm p i) p i
      = (dictLookup (nm p) i).getD (InfoSet.fresh acts) := by
  unfold getNode
  rw [touch_lookup_self]
  rfl

theorem touch_lookup_other (acts : List Action) (nm : NodeMap) (p p' : ℕ) (i i' : String)
    (h : p' ≠ p ∨ i' ≠ i) :
    dictLookup ((touch acts nm p i) p') i' = dictLookup (nm p') i' := by
  unfold touch
  cases hl : dictLookup (nm p) i with
  | some v => rfl
  | none =>
    rcases h with hp | hi
    · simp [hp]
    · by_cases hp : p' = p
      · subst hp
        simp [dictLookup_insert_ne _ _ _ _ hi]
      · simp [hp]

theorem setNode_lookup_self (nm : NodeMap) (p : ℕ) (i : String) (f : InfoSet → InfoSet) :
    dictLookup ((setNode nm p i f) p) i = (dictLookup (nm p) i).map f := by
  simp [setNode, dictLookup_modify_self]

theorem setNode_lookup_other (nm : NodeMap) (p p' : ℕ) (i i' : String)
    (f : InfoSet → InfoSet) (h : p' ≠ p ∨ i' ≠ i) :
    dictLookup ((setNode nm p i f) p') i' = dictLookup (nm p') i' := by
  rcases h with hp | hi
  · simp [setNode, hp]
  · by_cases hp : p' = p
    · subst hp
      simp [setNode, dictLookup_modify_ne _ _ _ _ hi]
    · simp [setNode, hp]

/-! ### Weighted-choice lemmas -/

theorem weightedChoice_mem (w : Action → ℚ) (a : Action) (l : List Action) (u : ℚ) :
    weightedChoice w (a :: l) u ∈ a :: l := by
  induction l generalizing a u with
  | nil => simp [weightedChoice]
  | cons b rest ih =>
    by_cases hu : u < w a
    · simp [weightedChoice, hu]
    · have hm := ih b (u - w a)
      simp only [weightedChoice, hu, if_false, ite_false]
      exact List.mem_cons_of_mem a hm

theorem chosenPair_spec (w : Action → ℚ) (p : Action × GameTree)
    (l : List (Action × GameTree)) (u : ℚ) :
    ∃ pr, chosenPair w (p :: l) u = some pr ∧ pr ∈ p :: l ∧
      pr.1 = weightedChoice w ((p :: l).map Prod.fst) u := by
  induction l generalizing p u with
  | nil => exact ⟨p, by simp [chosenPair, weightedChoice]⟩
  | cons q rest ih =>
    by_cases hu : u < w p.1
    · exact ⟨p, by simp [chosenPair, weightedChoice, hu]⟩
    · obtain ⟨pr, h1, h2, h3⟩ := ih q (u - w p.1)
      refine ⟨pr, ?_, List.mem_cons_of_mem p h2, ?_⟩
      · simp [chosenPair, hu, h1]
      · simp only [List.map_cons, weightedChoice, hu, if_false, ite_false]
        simpa using h3

theorem mccfrSample_eq_chosen (acts : List Action) (np player : ℕ) (prune : Bool)
    (w : Action → ℚ) (p : Action × GameTree) (l : List (Action × GameTree)) (u : ℚ)
    (nm : NodeMap) (tape : Tape) (pr : Action × GameTree)
    (h : chosenPair w (p :: l) u = some pr) :
    mccfrSample acts np player prune w (p :: l) u nm tape
      = mccfr acts np player prune pr.2 nm tape := by
  induction l generalizing p u with
  | nil =>
    obtain ⟨a, child⟩ := p
    simp [chosenPair] at h
    subst h
    simp [mccfrSample]
  | cons q rest ih =>
    obtain ⟨a, child⟩ := p
    by_cases hu : u < w a
    · simp [chosenPair, hu] at h
      subst h
      simp [mccfrSample, hu]
    · simp only [chosenPair, hu, if_false, ite_false] at h
      rw [show mccfrSample acts np player prune w ((a, child) :: q :: rest) u nm tape
          = mccfrSample acts np player prune w (q :: rest) (u - w a) nm tape by
        simp [mccfrSample, hu]]
      exact ih q (u - w a) h

/-- C4: at every non-terminal state whose acting player differs from the
traversing player, `mccfr` samples exactly one action by weighted random
choice from the node's instantaneous regret-matching strategy, recurses
into only that action's successor state (after the `setdefault` node
creation), and returns that single recursive call's result unmodified;
no sibling subtree is visited at the node. -/
theorem mccfr_opponent_single_sample (acts : List Action) (np player turn : ℕ)
    (iset : String) (children : List (Action × GameTree)) (nm : NodeMap)
    (tape : Tape) (prune : Bool) (hturn : turn ≠ player) (hne : children ≠ []) :
    ∃ pr : Action × GameTree,
      pr ∈ children ∧
      pr.1 = weightedChoice
        ((getNode acts (touch acts nm turn iset) turn iset).strategy (children.map Prod.fst))
        (children.map Prod.fst) (tapeHead tape) ∧
      mccfr acts np player prune (.decision turn iset children) nm tape
        = mccfr acts np player prune pr.2 (touch acts nm turn iset) (tapeTail tape) := by
  obtain ⟨p, l, rfl⟩ : ∃ p l, children = p :: l := by
    cases children with
    | nil => exact absurd rfl hne
    | cons p l => exact ⟨p, l, rfl⟩
  obtain ⟨pr, h1, h2, h3⟩ := chosenPair_spec
    ((getNode acts (touch acts nm turn iset) turn iset).strategy ((p :: l).map Prod.fst))
    p l (tapeHead tape)
  refine ⟨pr, h2, h3, ?_⟩
  rw [show mccfr acts np player prune (.decision turn iset (p :: l)) nm tape
      = mccfrSample acts np player prune
          ((getNode acts (touch acts nm turn iset) turn iset).strategy ((p :: l).map Prod.fst))
          (p :: l) (tapeHead tape) (touch acts nm turn iset) (tapeTail tape) by
    simp [mccfr, hturn]]
  exact mccfrSample_eq_chosen acts np player prune _ p l _ _ _ pr h1

theorem mccfr_opponent_single_sample_witness :
    (1 : ℕ) ≠ 0 ∧
    ([("P", GameTree.terminal [1, -1]), ("B", GameTree.terminal [-1, 1])]
      : List (Action × GameTree)) ≠ [] ∧
    ∃ pr : Action × GameTree,
      pr ∈ [("P", GameTree.terminal [1, -1]), ("B", GameTree.terminal [-1, 1])] ∧
      pr.1 = weightedChoice
        ((getNode ["P", "B"]
            (touch ["P", "B"] (fun _ => []) 1 "I") 1 "I").strategy ["P", "B"])
        ["P", "B"] (tapeHead [0]) ∧
      mccfr ["P", "B"] 2 0 false
          (.decision 1 "I" [("P", GameTree.terminal [1, -1]), ("B", GameTree.terminal [-1, 1])])
          (fun _ => []) [0]
        = mccfr ["P", "B"] 2 0 false pr.2 (touch ["P", "B"] (fun _ => []) 1 "I") (tapeTail [0]) :=
  ⟨by decide, by simp,
    by
      have h := mccfr_opponent_single_sample ["P", "B"] 2 0 1 "I"
        [("P", GameTree.terminal [1, -1]), ("B", GameTree.terminal [-1, 1])]
        (fun _ => []) [0] false (by decide) (by simp)
      simpa using h⟩

theorem updateStrategySample_eq_chosen (acts : List Action) (player turn : ℕ)
    (iset : String) (w : Action → ℚ) (p : Action × GameTree)
    (l : List (Action × GameTree)) (u : ℚ) (nm : NodeMap) (tape : Tape)
    (pr : Action × GameTree) (h : chosenPair w (p :: l) u = some pr) :
    updateStrategySample acts player turn iset w (p :: l) u nm tape
      = update_strategy acts player pr.2
          (setNode nm turn iset (bumpStrategySum pr.1)) tape := by
  induction l generalizing p u with
  | nil =>
    obtain ⟨a, child⟩ := p
    simp [chosenPair] at h
    subst h
    simp [updateStrategySample]
  | cons q rest ih =>
    obtain ⟨a, child⟩ := p
    by_cases hu : u < w a
    · simp [chosenPair, hu] at h
      subst h
      simp [updateStrategySample, hu]
    · simp only [chosenPair, hu, if_false, ite_false] at h
      rw [show updateStrategySample acts player turn iset w ((a, child) :: q :: rest) u nm tape
          = updateStrategySample acts player turn iset w (q :: rest) (u - w a) nm tape by
        simp [updateStrategySample, hu]]
      exact ih q (u - w a) h

theorem updateStrategyAll_eq_foldl (acts : List Action) (player : ℕ) :
    ∀ (l : List (Action × GameTree)) (nm : NodeMap) (tape : Tape),
    updateStrategyAll acts player l nm tape
      = l.foldl (fun s (c : Action × GameTree) => update_strategy acts player c.2 s.1 s.2)
          (nm, tape) := by
  intro l
  induction l with
  | nil => intro nm tape; simp [updateStrategyAll]
  | cons c rest ih =>
    intro nm tape
    simp only [updateStrategyAll, List.foldl_cons]
    rw [ih]

/-- C5: `update_strategy(player, state)` is asymmetric.  At a node acted
by `player` it samples one action from the instantaneous strategy,
increments that node's `strategy_sum[sampled_action]` by exactly 1, and
recurses only into the sampled branch; at a node acted by any other
player it increments nothing and recurses into every legal action in
order. -/
theorem update_strategy_asymmetry (acts : List Action) (player turn : ℕ)
    (iset : String) (children : List (Action × GameTree)) (nm : NodeMap) (tape : Tape) :
    (turn = player → children ≠ [] →
      ∃ pr : Action × GameTree,
        pr ∈ children ∧
        pr.1 = weightedChoice
          ((getNode acts (touch acts nm turn iset) turn iset).strategy
            (children.map Prod.fst))
          (children.map Prod.fst) (tapeHead tape) ∧
        update_strategy acts player (.decision turn iset children) nm tape
          = update_strategy acts player pr.2
              (setNode (touch acts nm turn iset) turn iset (bumpStrategySum pr.1))
              (tapeTail tape) ∧
        (getNode acts
            (setNode (touch acts nm turn iset) turn iset (bumpStrategySum pr.1))
            turn iset).strategy_sum pr.1
          = (getNode acts (touch acts nm turn iset) turn iset).strategy_sum pr.1 + 1) ∧
    (turn ≠ player →
      update_strategy acts player (.decision turn iset children) nm tape
        = children.foldl
            (fun s (c : Action × GameTree) => update_strategy acts player c.2 s.1 s.2)
            (touch acts nm turn iset, tape)) := by
  constructor
  · intro hturn hne
    obtain ⟨p, l, rfl⟩ : ∃ p l, children = p :: l := by
      cases children with
      | nil => exact absurd rfl hne
      | cons p l => exact ⟨p, l, rfl⟩
    obtain ⟨pr, h1, h2, h3⟩ := chosenPair_spec
      ((getNode acts (touch acts nm turn iset) turn iset).strategy ((p :: l).map Prod.fst))
      p l (tapeHead tape)
    refine ⟨pr, h2, h3, ?_, ?_⟩
    · rw [show update_strategy acts player (.decision turn iset (p :: l)) nm tape
          = updateStrategySample acts player turn iset
              ((getNode acts (touch acts nm turn iset) turn iset).strategy
                ((p :: l).map Prod.fst))
              (p :: l) (tapeHead tape) (touch acts nm turn iset) (tapeTail tape) by
        simp [update_strategy, hturn]]
      exact updateStrategySample_eq_chosen acts player turn iset _ p l _ _ _ pr h1
    · unfold getNode
      rw [setNode_lookup_self, touch_lookup_self]
      simp [bumpStrategySum]
  · intro hturn
    rw [show update_strategy acts player (.decision turn iset children) nm tape
        = updateStrategyAll acts player children (touch acts nm turn iset) tape by
      simp [update_strategy, hturn]]
    exact updateStrategyAll_eq_foldl acts player children _ tape

theorem update_strategy_asymmetry_witness :
    ∃ pr : Action × GameTree,
      pr ∈ [("P", GameTree.terminal [1, -1]), ("B", GameTree.terminal [-1, 1])] ∧
      pr.1 = weightedChoice
        ((getNode ["P", "B"]
            (touch ["P", "B"] (fun _ => []) 0 "I") 0 "I").strategy ["P", "B"])
        ["P", "B"] (tapeHead [0]) ∧
      update_strategy ["P", "B"] 0
          (.decision 0 "I" [("P", GameTree.terminal [1, -1]), ("B", GameTree.terminal [-1, 1])])
          (fun _ => []) [0]
        = update_strategy ["P", "B"] 0 pr.2
            (setNode (touch ["P", "B"] (fun _ => []) 0 "I") 0 "I" (bumpStrategySum pr.1))
            (tapeTail [0]) ∧
      (getNode ["P", "B"]
          (setNode (touch ["P", "B"] (fun _ => []) 0 "I") 0 "I" (bumpStrategySum pr.1))
          0 "I").strategy_sum pr.1
        = (getNode ["P", "B"] (touch ["P", "B"] (fun _ => []) 0 "I") 0 "I").strategy_sum pr.1
            + 1 := by
  have h := (update_strategy_asymmetry ["P", "B"] 0 0 "I"
    [("P", GameTree.terminal [1, -1]), ("B", GameTree.terminal [-1, 1])]
    (fun _ => []) [0]).1 rfl (by simp)
  simpa using h

/-- C3: whenever `subgame_mccfr` or `subgame_update_strategy` encounters a
non-terminal node whose information set is frozen — whether the acting
player is the traversing player or not — the call fails with the explicit
`NotImplementedError` message, and the strategy map (hence the frozen
node's `regret_sum` and `strategy_sum`) is returned completely
unchanged. -/
theorem subgame_frozen_raises (np player : ℕ) (prune : Bool) (st : SState)
    (leaf : Bool) (lv : Action → List ℚ) (children : List (Action × STree))
    (sm : SMap) (tape : Tape)
    (hterm : st.is_terminal = false)
    (hfrozen : (sm st.turn st.iset).is_frozen = true) :
    subgame_mccfr np player prune (.mk st leaf lv children) sm tape
      = (.error frozenMsg, sm, tape) ∧
    subgame_update_strategy player (.mk st leaf lv children) sm tape
      = (.error frozenMsg, sm, tape) := by
  constructor
  · by_cases h : st.turn = player
    · have hf : (sm player st.iset).is_frozen = true := h ▸ hfrozen
      simp [subgame_mccfr, hterm, h, hf]
    · simp [subgame_mccfr, hterm, h, hfrozen]
  · by_cases h : st.turn = player
    · have hf : (sm player st.iset).is_frozen = true := h ▸ hfrozen
      simp [subgame_update_strategy, hterm, h, hf]
    · simp [subgame_update_strategy, hterm, h, hfrozen]

theorem subgame_frozen_raises_witness :
    (SState.mk false [] 0 "J" ["C"]).is_terminal = false ∧
    ((fun _ _ => InfoSet.mk ["C"] (fun _ => 0) (fun _ => 0) true : SMap)
        (SState.mk false [] 0 "J" ["C"]).turn
        (SState.mk false [] 0 "J" ["C"]).iset).is_frozen = true ∧
    (subgame_mccfr 2 0 true (.mk (SState.mk false [] 0 "J" ["C"]) false (fun _ => [0, 0]) [])
        (fun _ _ => InfoSet.mk ["C"] (fun _ => 0) (fun _ => 0) true) []
      = (.error frozenMsg, fun _ _ => InfoSet.mk ["C"] (fun _ => 0) (fun _ => 0) true, []) ∧
    subgame_update_strategy 0 (.mk (SState.mk false [] 0 "J" ["C"]) false (fun _ => [0, 0]) [])
        (fun _ _ => InfoSet.mk ["C"] (fun _ => 0) (fun _ => 0) true) []
      = (.error frozenMsg, fun _ _ => InfoSet.mk ["C"] (fun _ => 0) (fun _ => 0) true, [])) :=
  ⟨rfl, rfl,
    subgame_frozen_raises 2 0 true (SState.mk false [] 0 "J" ["C"]) false
      (fun _ => [0, 0]) [] (fun _ _ => InfoSet.mk ["C"] (fun _ => 0) (fun _ => 0) true) []
      rfl rfl⟩

/-- C10: at a leaf tree node whose acting player differs from the
traversing player and whose information set is not frozen,
`subgame_update_strategy` samples one of the four continuation labels
from that node's instantaneous strategy and increments that
opponent-owned information set's `strategy_sum` by 1, touching no other
entry of the strategy map and recursing no further. -/
theorem subgame_update_strategy_opponent_leaf (player : ℕ) (st : SState)
    (lv : Action → List ℚ) (children : List (Action × STree)) (sm : SMap) (tape : Tape)
    (hterm : st.is_terminal = false)
    (hturn : st.turn ≠ player)
    (hfrozen : (sm st.turn st.iset).is_frozen = false) :
    ∃ chosen : Action,
      chosen = weightedChoice ((sm st.turn st.iset).strategy continuation) continuation
        (tapeHead tape) ∧
      chosen ∈ continuation ∧
      subgame_update_strategy player (.mk st true lv children) sm tape
        = (.ok (), supdate sm st.turn st.iset (bumpStrategySum chosen), tapeTail tape) ∧
      ((supdate sm st.turn st.iset (bumpStrategySum chosen)) st.turn st.iset).strategy_sum
          chosen
        = (sm st.turn st.iset).strategy_sum chosen + 1 ∧
      ∀ p i, ¬(p = st.turn ∧ i = st.iset) →
        (supdate sm st.turn st.iset (bumpStrategySum chosen)) p i = sm p i := by
  refine ⟨_, rfl, ?_, ?_, ?_, ?_⟩
  · exact weightedChoice_mem _ "1" ["2", "3", "4"] _
  · simp [subgame_update_strategy, hterm, hturn, hfrozen]
  · simp [supdate, bumpStrategySum]
  · intro p i hpi
    simp [supdate, hpi]

theorem subgame_update_strategy_opponent_leaf_witness :
    ∃ chosen : Action,
      chosen = weightedChoice
        (((fun _ _ => InfoSet.fresh ["F", "C"] : SMap) 1 "K").strategy continuation)
        continuation (tapeHead [0]) ∧
      chosen ∈ continuation ∧
      subgame_update_strategy 0
          (.mk (SState.mk false [] 1 "K" ["F", "C"]) true (fun _ => [0, 0]) [])
          (fun _ _ => InfoSet.fresh ["F", "C"]) [0]
        = (.ok (),
            supdate (fun _ _ => InfoSet.fresh ["F", "C"]) 1 "K" (bumpStrategySum chosen),
            tapeTail [0]) ∧
      ((supdate (fun _ _ => InfoSet.fresh ["F", "C"]) 1 "K"
          (bumpStrategySum chosen)) 1 "K").strategy_sum chosen
        = ((fun _ _ => InfoSet.fresh ["F", "C"] : SMap) 1 "K").strategy_sum chosen + 1 ∧
      ∀ p i, ¬(p = 1 ∧ i = "K") →
        (supdate (fun _ _ => InfoSet.fresh ["F", "C"]) 1 "K"
          (bumpStrategySum chosen)) p i
          = (fun _ _ => InfoSet.fresh ["F", "C"] : SMap) p i := by
  have h := subgame_update_strategy_opponent_leaf 0 (SState.mk false [] 1 "K" ["F", "C"])
    (fun _ => [0, 0]) [] (fun _ _ => InfoSet.fresh ["F", "C"]) [0]
    rfl (by decide) rfl
  simpa using h

/-! ### Discounting -/

theorem scaleInfoSet_comp (d1 d2 : ℚ) (n : InfoSet) :
    scaleInfoSet d2 (scaleInfoSet d1 n) = scaleInfoSet (d1 * d2) n := by
  cases n
  simp only [scaleInfoSet, InfoSet.mk.injEq, true_and, and_true]
  exact ⟨funext fun a => by ring, funext fun a => by ring⟩

/-- C7: applying the discount scaling twice, first with factor `d1` and
then with factor `d2`, yields exactly the same node map — hence the same
`regret_sum` and `strategy_sum` values everywhere — as a single scaling
of every entry by `d1 * d2`; and `discount(t)` is exactly the scaling
with factor `discountFactor t`. -/
theorem discount_composition (np : ℕ) (d1 d2 : ℚ) (t : ℕ) (nm : NodeMap) :
    discountScale np d2 (discountScale np d1 nm) = discountScale np (d1 * d2) nm ∧
    discount np t nm = discountScale np (discountFactor t) nm := by
  constructor
  · funext p
    by_cases h : p < np
    · simp [discountScale, h, List.map_map, Function.comp_def, scaleInfoSet_comp]
    · simp [discountScale, h]
  · rfl

theorem dictLookup_map_value (g : InfoSet → InfoSet) (d : InfoDict) (i : String) :
    dictLookup (d.map (fun e => (e.1, g e.2))) i = (dictLookup d i).map g := by
  induction d with
  | nil => simp [dictLookup]
  | cons e rest ih =>
    by_cases h : e.1 = i
    · simp [dictLookup, h]
    · simp [dictLookup, h, ih]

/-- C6: `discount(t)` multiplies every `regret_sum` entry and every
`strategy_sum` entry of every information set of every player in the node
map by the single factor `d = (t/discount_interval)/(t/discount_interval + 1)`
and modifies nothing else (keys, `actions` and `is_frozen` are preserved,
and players outside `range(num_players)` are untouched); within `train`
it is invoked exactly on the iterations `t` with `t < 400` and
`t % 100 == 0`. -/
theorem discount_schedule (acts : List Action) (np : ℕ)
    (mkState : List ℕ → GameTree) (shuffleFn : ℚ → List ℕ → List ℕ)
    (st : TrainState) (N t : ℕ) (nm : NodeMap) (p : ℕ) (i : String) :
    (t ∈ discountCalls N ↔ 1 ≤ t ∧ t ≤ N ∧ t < 400 ∧ t % 100 = 0) ∧
    (t < lcfr_threshold ∧ t % discount_interval = 0 →
      (trainIter acts np mkState shuffleFn t st).nm
        = discount np t
            (trainPlayers acts np mkState t (shuffleFn (tapeHead st.tape) st.cards)
              (List.range np) st.nm (tapeTail st.tape)).1) ∧
    (¬ (t < lcfr_threshold ∧ t % discount_interval = 0) →
      (trainIter acts np mkState shuffleFn t st).nm
        = (trainPlayers acts np mkState t (shuffleFn (tapeHead st.tape) st.cards)
            (List.range np) st.nm (tapeTail st.tape)).1) ∧
    (p < np →
      dictLookup ((discount np t nm) p) i
        = (dictLookup (nm p) i).map
            (fun n => InfoSet.mk n.actions
              (fun a => n.regret_sum a * discountFactor t)
              (fun a => n.strategy_sum a * discountFactor t) n.is_frozen)) ∧
    (¬ p < np → (discount np t nm) p = nm p) ∧
    discountFactor t = ((t : ℚ) / 100) / ((t : ℚ) / 100 + 1) := by
  refine ⟨?_, ?_, ?_, ?_, ?_, ?_⟩
  · simp [discountCalls, List.mem_range'_1, lcfr_threshold, discount_interval]
    constructor
    · rintro ⟨⟨h1, h2⟩, h3, h4⟩
      exact ⟨h1, by omega, h3, h4⟩
    · rintro ⟨h1, h2, h3, h4⟩
      exact ⟨⟨h1, by omega⟩, h3, h4⟩
  · intro h
    simp [trainIter, h]
  · intro h
    simp [trainIter, h]
  · intro h
    have : scaleInfoSet (discountFactor t)
        = fun n => InfoSet.mk n.actions
            (fun a => n.regret_sum a * discountFactor t)
            (fun a => n.strategy_sum a * discountFactor t) n.is_frozen := by
      funext n
      cases n
      rfl
    have hmap := dictLookup_map_value (scaleInfoSet (discountFactor t)) (nm p) i
    simp only [discount, discountScale, if_pos h]
    rw [hmap, this]
  · intro h
    simp [discount, discountScale, h]
  · simp [discountFactor, discount_interval]

theorem discount_schedule_witness :
    ((0 : ℕ) < 2 ∧ (100 : ℕ) < 400 ∧ (100 : ℕ) % 100 = 0) ∧
    ((100 ∈ discountCalls 1000 ↔ 1 ≤ 100 ∧ 100 ≤ 1000 ∧ 100 < 400 ∧ 100 % 100 = 0) ∧
    (100 < lcfr_threshold ∧ 100 % discount_interval = 0 →
      (trainIter ["P", "B"] 2 (fun _ => GameTree.terminal [0, 0]) (fun _ c => c) 100
          (TrainState.mk [] (fun _ => []) [])).nm
        = discount 2 100
            (trainPlayers ["P", "B"] 2 (fun _ => GameTree.terminal [0, 0]) 100
              ((fun _ c => c : ℚ → List ℕ → List ℕ) (tapeHead []) [])
              (List.range 2) (fun _ => []) (tapeTail [])).1) ∧
    (¬ (100 < lcfr_threshold ∧ 100 % discount_interval = 0) →
      (trainIter ["P", "B"] 2 (fun _ => GameTree.terminal [0, 0]) (fun _ c => c) 100
          (TrainState.mk [] (fun _ => []) [])).nm
        = (trainPlayers ["P", "B"] 2 (fun _ => GameTree.terminal [0, 0]) 100
            ((fun _ c => c : ℚ → List ℕ → List ℕ) (tapeHead []) [])
            (List.range 2) (fun _ => []) (tapeTail [])).1) ∧
    (0 < 2 →
      dictLookup ((discount 2 100 (fun _ => [("I", InfoSet.fresh ["P", "B"])])) 0) "I"
        = (dictLookup ((fun _ => [("I", InfoSet.fresh ["P", "B"])] : NodeMap) 0) "I").map
            (fun n => InfoSet.mk n.actions
              (fun a => n.regret_sum a * discountFactor 100)
              (fun a => n.strategy_sum a * discountFactor 100) n.is_frozen)) ∧
    (¬ (0 : ℕ) < 2 → (discount 2 100 (fun _ => [("I", InfoSet.fresh ["P", "B"])])) 0
        = (fun _ => [("I", InfoSet.fresh ["P", "B"])] : NodeMap) 0) ∧
    discountFactor 100 = ((100 : ℚ) / 100) / ((100 : ℚ) / 100 + 1)) :=
  ⟨by decide,
    discount_schedule ["P", "B"] 2 (fun _ => GameTree.terminal [0, 0]) (fun _ c => c)
      (TrainState.mk [] (fun _ => []) []) 1000 100
      (fun _ => [("I", InfoSet.fresh ["P", "B"])]) 0 "I"⟩

/-- C1: contrary to the claim, when the expected-utility evaluation
(`expected_utility` via `traverse_tree`) reaches an information set that
was never visited during training, no "insufficient training" error is
raised: the `setdefault` on the node map silently inserts a fresh
`InfoSet` and its `avg_strategy` (zero `strategy_sum` total) falls back
to the uniform distribution, so the traversal completes normally.  On a
single-decision game whose only information set `"I"` is absent from the
node map, the traversal returns the uniform mixture of the payoffs,
inserts the fresh node, and uses average probability `1/2` for each of
the two actions — the silent uniform default the claim rules out. -/
theorem traverse_tree_unexplored_defaults_uniform :
    (traverse_tree ["P", "B"] 2
      (.decision 0 "I" [("P", .terminal [1, -1]), ("B", .terminal [-1, 1])])
      (fun _ => [])).1 = [0, 0] ∧
    dictLookup ((traverse_tree ["P", "B"] 2
      (.decision 0 "I" [("P", .terminal [1, -1]), ("B", .terminal [-1, 1])])
      (fun _ => [])).2 0) "I" = some (InfoSet.fresh ["P", "B"]) ∧
    (getNode ["P", "B"] (traverse_tree ["P", "B"] 2
      (.decision 0 "I" [("P", .terminal [1, -1]), ("B", .terminal [-1, 1])])
      (fun _ => [])).2 0 "I").avg_strategy "P" = 1/2 ∧
    (getNode ["P", "B"] (traverse_tree ["P", "B"] 2
      (.decision 0 "I" [("P", .terminal [1, -1]), ("B", .terminal [-1, 1])])
      (fun _ => [])).2 0 "I").avg_strategy "B" = 1/2 := by
  norm_num [traverse_tree, traverseChildren, touch, getNode, dictLookup, dictInsert,
    InfoSet.avg_strategy, InfoSet.fresh, vecZero, vecAdd, vecScale,
    List.replicate, List.zipWith]

/-! ### Preservation of untouched node-map entries by the traversal -/

theorem GameTree.inductionOn {motive : GameTree → Prop}
    (hterm : ∀ payoff, motive (GameTree.terminal payoff))
    (hdec : ∀ turn iset children,
      (∀ c ∈ children, motive c.2) → motive (GameTree.decision turn iset children)) :
    ∀ t, motive t
  | .terminal p => hterm p
  | .decision turn iset children =>
    hdec turn iset children (fun c hc => GameTree.inductionOn hterm hdec c.2)
termination_by t => sizeOf t
decreasing_by
  have h1 := List.sizeOf_lt_of_mem hc
  cases c
  simp at h1 ⊢
  omega

theorem occursInList_false_iff (p : ℕ) (i : String) (l : List (Action × GameTree)) :
    occursInList p i l = false ↔ ∀ c ∈ l, occursIn p i c.2 = false := by
  induction l with
  | nil => simp [occursInList]
  | cons c rest ih => simp [occursInList, ih]

theorem applyRegrets_preserve (prune : Bool) (turn : ℕ) (iset : String)
    (valid : List Action) (results : ExploreResults) (ev : List ℚ)
    (p : ℕ) (i : String) (hne : p ≠ turn ∨ i ≠ iset) :
    ∀ nm : NodeMap,
      dictLookup ((applyRegrets prune turn iset valid results ev nm) p) i
        = dictLookup (nm p) i := by
  induction valid with
  | nil => intro nm; simp [applyRegrets]
  | cons a rest ih =>
    intro nm
    simp only [applyRegrets, List.foldl_cons] at ih ⊢
    by_cases h : prune ∧ ¬ isExplored results a
    · rw [if_pos h]
      exact ih nm
    · rw [if_neg h]
      rw [ih]
      exact setNode_lookup_other nm turn p iset i _ hne

theorem mccfrExplore_preserve (acts : List Action) (np player : ℕ) (prune : Bool)
    (turn : ℕ) (iset : String) (p : ℕ) (i : String) :
    ∀ l : List (Action × GameTree),
      (∀ c ∈ l, ∀ nm tape, occursIn p i c.2 = false →
        dictLookup ((mccfr acts np player prune c.2 nm tape).2.1 p) i
          = dictLookup (nm p) i) →
      occursInList p i l = false →
      ∀ nm tape,
        dictLookup ((mccfrExplore acts np player prune turn iset l nm tape).2.1 p) i
          = dictLookup (nm p) i := by
  intro l
  induction l with
  | nil => intro _ _ nm tape; simp [mccfrExplore]
  | cons c rest ih =>
    intro hIH hl nm tape
    obtain ⟨a, child⟩ := c
    simp only [occursInList, Bool.or_eq_false_iff] at hl
    obtain ⟨h1, h2⟩ := hl
    by_cases hskip : prune ∧ ¬ (regret_minimum < (getNode acts nm turn iset).regret_sum a)
    · have hskip' : prune = true ∧ (getNode acts nm turn iset).regret_sum a ≤ regret_minimum :=
        ⟨hskip.1, not_lt.mp hskip.2⟩
      rw [show (mccfrExplore acts np player prune turn iset ((a, child) :: rest) nm tape).2.1
          = (mccfrExplore acts np player prune turn iset rest nm tape).2.1 by
        simp [mccfrExplore, hskip']]
      exact ih (fun c hc => hIH c (List.mem_cons_of_mem _ hc)) h2 nm tape
    · have hskip' : ¬ (prune = true ∧ (getNode acts nm turn iset).regret_sum a ≤ regret_minimum) :=
        fun hh => hskip ⟨hh.1, not_lt.mpr hh.2⟩
      rw [show (mccfrExplore acts np player prune turn iset ((a, child) :: rest) nm tape).2.1
          = (mccfrExplore acts np player prune turn iset rest
              (mccfr acts np player prune child nm tape).2.1
              (mccfr acts np player prune child nm tape).2.2).2.1 by
        simp [mccfrExplore, hskip']]
      rw [ih (fun c hc => hIH c (List.mem_cons_of_mem _ hc)) h2]
      exact hIH (a, child) (List.mem_cons_self _ _) nm tape h1

theorem mccfrSample_preserve (acts : List Action) (np player : ℕ) (prune : Bool)
    (w : Action → ℚ) (p : ℕ) (i : String) :
    ∀ l : List (Action × GameTree),
      (∀ c ∈ l, ∀ nm tape, occursIn p i c.2 = false →
        dictLookup ((mccfr acts np player prune c.2 nm tape).2.1 p) i
          = dictLookup (nm p) i) →
      occursInList p i l = false →
      ∀ u (nm : NodeMap) tape,
        dictLookup ((mccfrSample acts np player prune w l u nm tape).2.1 p) i
          = dictLookup (nm p) i := by
  intro l
  induction l with
  | nil => intro _ _ u nm tape; simp [mccfrSample]
  | cons c rest ih =>
    intro hIH hl u nm tape
    simp only [occursInList, Bool.or_eq_false_iff] at hl
    obtain ⟨h1, h2⟩ := hl
    obtain ⟨a, child⟩ := c
    cases rest with
    | nil =>
      rw [show mccfrSample acts np player prune w [(a, child)] u nm tape
          = mccfr acts np player prune child nm tape by simp [mccfrSample]]
      exact hIH (a, child) (List.mem_cons_self _ _) nm tape h1
    | cons q rest2 =>
      by_cases hu : u < w a
      · rw [show mccfrSample acts np player prune w ((a, child) :: q :: rest2) u nm tape
            = mccfr acts np player prune child nm tape by simp [mccfrSample, hu]]
        exact hIH (a, child) (List.mem_cons_self _ _) nm tape h1
      · rw [show mccfrSample acts np player prune w ((a, child) :: q :: rest2) u nm tape
            = mccfrSample acts np player prune w (q :: rest2) (u - w a) nm tape by
          simp [mccfrSample, hu]]
        exact ih (fun c hc => hIH c (List.mem_cons_of_mem _ hc)) (by
          simp only [occursInList, Bool.or_eq_false_iff] at h2 ⊢
          exact h2) (u - w a) nm tape

/-- A traversal can only modify node-map entries whose information set
labels a decision node of the traversed tree: every other entry of the
node map is left exactly as it was. -/
theorem mccfr_preserve (acts : List Action) (np player : ℕ) (prune : Bool)
    (p : ℕ) (i : String) :
    ∀ t (nm : NodeMap) tape, occursIn p i t = false →
      dictLookup ((mccfr acts np player prune t nm tape).2.1 p) i
        = dictLookup (nm p) i := by
  intro t
  induction t using GameTree.inductionOn with
  | hterm payoff => intro nm tape h; simp [mccfr]
  | hdec turn iset children ih =>
    intro nm tape h
    simp only [occursIn, Bool.or_eq_false_iff, Bool.and_eq_false_iff,
      decide_eq_false_iff_not] at h
    obtain ⟨hni, hlist⟩ := h
    have hne : p ≠ turn ∨ i ≠ iset := by
      rcases hni with h | h
      · exact Or.inl (fun hh => h hh.symm)
      · exact Or.inr (fun hh => h hh.symm)
    have htouch := touch_lookup_other acts nm turn p iset i hne
    have hIH : ∀ c ∈ children, ∀ nm tape, occursIn p i c.2 = false →
        dictLookup ((mccfr acts np player prune c.2 nm tape).2.1 p) i
          = dictLookup (nm p) i := fun c hc => ih c hc
    by_cases hturn : turn = player
    · rw [show (mccfr acts np player prune (.decision turn iset children) nm tape).2.1
          = applyRegrets prune turn iset (children.map Prod.fst)
              (mccfrExplore acts np player prune turn iset children
                (touch acts nm turn iset) tape).1
              (evAccum np
                ((getNode acts (touch acts nm turn iset) turn iset).strategy
                  (children.map Prod.fst))
                (mccfrExplore acts np player prune turn iset children
                  (touch acts nm turn iset) tape).1)
              (mccfrExplore acts np player prune turn iset children
                (touch acts nm turn iset) tape).2.1 by
        simp [mccfr, hturn]]
      rw [applyRegrets_preserve _ _ _ _ _ _ _ _ hne]
      rw [mccfrExplore_preserve acts np player prune turn iset p i children hIH hlist]
      exact htouch
    · rw [show (mccfr acts np player prune (.decision turn iset children) nm tape).2.1
          = (mccfrSample acts np player prune
              ((getNode acts (touch acts nm turn iset) turn iset).strategy
                (children.map Prod.fst))
              children (tapeHead tape) (touch acts nm turn iset) (tapeTail tape)).2.1 by
        simp [mccfr, hturn]]
      cases children with
      | nil => simp [mccfrSample, htouch]
      | cons c rest =>
        rw [mccfrSample_preserve acts np player prune _ p i (c :: rest) hIH hlist]
        exact htouch

/-! ### Pruning -/

theorem mccfrExplore_skip_unexplored (acts : List Action) (np player turn : ℕ)
    (iset : String) (a : Action) :
    ∀ l : List (Action × GameTree),
      (∀ c ∈ l, ∀ (nm : NodeMap) tape,
        dictLookup ((mccfr acts np player true c.2 nm tape).2.1 turn) iset
          = dictLookup (nm turn) iset) →
      a ∈ l.map Prod.fst →
      ∀ (nm : NodeMap) tape,
        (getNode acts nm turn iset).regret_sum a ≤ regret_minimum →
        isExplored ((mccfrExplore acts np player true turn iset l nm tape).1) a = false := by
  intro l
  induction l with
  | nil => intro _ ha; simp at ha
  | cons c rest ih =>
    intro hpres ha nm tape hskip
    obtain ⟨b, child⟩ := c
    by_cases hskipb : (getNode acts nm turn iset).regret_sum b ≤ regret_minimum
    · rw [show (mccfrExplore acts np player true turn iset ((b, child) :: rest) nm tape).1
          = (b, false, vecZero np)
              :: (mccfrExplore acts np player true turn iset rest nm tape).1 by
        simp [mccfrExplore, hskipb]]
      by_cases hab : b = a
      · simp [isExplored, hab]
      · rw [show isExplored ((b, false, vecZero np)
              :: (mccfrExplore acts np player true turn iset rest nm tape).1) a
            = isExplored ((mccfrExplore acts np player true turn iset rest nm tape).1) a by
          simp [isExplored, hab]]
        have ha' : a ∈ rest.map Prod.fst := by
          simp only [List.map_cons, List.mem_cons] at ha
          rcases ha with h | h
          · exact absurd h.symm hab
          · exact h
        exact ih (fun c hc => hpres c (List.mem_cons_of_mem _ hc)) ha' nm tape hskip
    · by_cases hab : b = a
      · subst hab
        exact absurd hskip hskipb
      · rw [show (mccfrExplore acts np player true turn iset ((b, child) :: rest) nm tape).1
            = (b, true, (mccfr acts np player true child nm tape).1)
                :: (mccfrExplore acts np player true turn iset rest
                    (mccfr acts np player true child nm tape).2.1
                    (mccfr acts np player true child nm tape).2.2).1 by
          simp [mccfrExplore, hskipb]]
        rw [show isExplored ((b, true, (mccfr acts np player true child nm tape).1)
              :: (mccfrExplore acts np player true turn iset rest
                  (mccfr acts np player true child nm tape).2.1
                  (mccfr acts np player true child nm tape).2.2).1) a
            = isExplored ((mccfrExplore acts np player true turn iset rest
                  (mccfr acts np player true child nm tape).2.1
                  (mccfr acts np player true child nm tape).2.2).1) a by
          simp [isExplored, hab]]
        have ha' : a ∈ rest.map Prod.fst := by
          simp only [List.map_cons, List.mem_cons] at ha
          rcases ha with h | h
          · exact absurd h.symm hab
          · exact h
        have hget : getNode acts (mccfr acts np player true child nm tape).2.1 turn iset
            = getNode acts nm turn iset := by
          unfold getNode
          rw [hpres (b, child) (List.mem_cons_self _ _) nm tape]
        exact ih (fun c hc => hpres c (List.mem_cons_of_mem _ hc)) ha' _ _
          (by rw [hget]; exact hskip)

theorem applyRegrets_unexplored (turn : ℕ) (iset : String) (results : ExploreResults)
    (ev : List ℚ) (a : Action) (hexp : isExplored results a = false) :
    ∀ (valid : List Action) (nm : NodeMap),
      (dictLookup ((applyRegrets true turn iset valid results ev nm) turn) iset).map
          (fun n => n.regret_sum a)
        = (dictLookup (nm turn) iset).map (fun n => n.regret_sum a) := by
  intro valid
  induction valid with
  | nil => intro nm; simp [applyRegrets]
  | cons b rest ih =>
    intro nm
    simp only [applyRegrets, List.foldl_cons] at ih ⊢
    by_cases hb : isExplored results b = true
    · have hab : b ≠ a := fun h => by rw [h, hexp] at hb; exact Bool.noConfusion hb
      rw [if_neg (by simp [hb])]
      rw [ih]
      rw [setNode_lookup_self]
      cases dictLookup (nm turn) iset with
      | none => rfl
      | some v => simp [bumpRegret, Ne.symm hab]
    · rw [if_pos ⟨trivial, hb⟩]
      exact ih nm

/-- C2: in a `mccfr` call with `prune = true` at a node acted by the
traversing player (whose information set does not recur inside its own
subtrees, as in any poker game tree), every legal action whose
`regret_sum` is at or below `regret_minimum` is skipped: the per-action
loop records it as unexplored passing the node map and random tape
through unchanged (its subtree is not traversed), it contributes nothing
to the accumulated expected value, and its `regret_sum` entry is left
unchanged by the regret update that follows. -/
theorem mccfr_prune_skip (acts : List Action) (np player : ℕ) (iset : String)
    (children : List (Action × GameTree)) (nm : NodeMap) (tape : Tape) (a : Action)
    (hno : ∀ c ∈ children, occursIn player iset c.2 = false)
    (ha : a ∈ children.map Prod.fst)
    (hskip : (getNode acts (touch acts nm player iset) player iset).regret_sum a
      ≤ regret_minimum) :
    isExplored ((mccfrExplore acts np player true player iset children
        (touch acts nm player iset) tape).1) a = false ∧
    (getNode acts ((mccfr acts np player true (.decision player iset children) nm tape).2.1)
        player iset).regret_sum a
      = (getNode acts (touch acts nm player iset) player iset).regret_sum a ∧
    (∀ (child : GameTree) (rest : List (Action × GameTree)) (nm2 : NodeMap) (tape2 : Tape),
      (getNode acts nm2 player iset).regret_sum a ≤ regret_minimum →
      mccfrExplore acts np player true player iset ((a, child) :: rest) nm2 tape2
        = ((a, false, vecZero np)
            :: (mccfrExplore acts np player true player iset rest nm2 tape2).1,
          (mccfrExplore acts np player true player iset rest nm2 tape2).2)) ∧
    (∀ (strat : Action → ℚ) (v : List ℚ) (rs : ExploreResults),
      evAccum np strat ((a, false, v) :: rs) = evAccum np strat rs) := by
  have hpres : ∀ c ∈ children, ∀ (nm' : NodeMap) tape',
      dictLookup ((mccfr acts np player true c.2 nm' tape').2.1 player) iset
        = dictLookup (nm' player) iset :=
    fun c hc nm' tape' => mccfr_preserve acts np player true player iset c.2 nm' tape'
      (hno c hc)
  have h1 := mccfrExplore_skip_unexplored acts np player player iset a children hpres ha
    (touch acts nm player iset) tape hskip
  refine ⟨h1, ?_, ?_, ?_⟩
  · rw [show (mccfr acts np player true (.decision player iset children) nm tape).2.1
        = applyRegrets true player iset (children.map Prod.fst)
            (mccfrExplore acts np player true player iset children
              (touch acts nm player iset) tape).1
            (evAccum np
              ((getNode acts (touch acts nm player iset) player iset).strategy
                (children.map Prod.fst))
              (mccfrExplore acts np player true player iset children
                (touch acts nm player iset) tape).1)
            (mccfrExplore acts np player true player iset children
              (touch acts nm player iset) tape).2.1 by
      simp [mccfr]]
    have hmap := applyRegrets_unexplored player iset
      (mccfrExplore acts np player true player iset children
        (touch acts nm player iset) tape).1
      (evAccum np
        ((getNode acts (touch acts nm player iset) player iset).strategy
          (children.map Prod.fst))
        (mccfrExplore acts np player true player iset children
          (touch acts nm player iset) tape).1)
      a h1 (children.map Prod.fst)
      (mccfrExplore acts np player true player iset children
        (touch acts nm player iset) tape).2.1
    have hexp := mccfrExplore_preserve acts np player true player iset player iset children
      (fun c hc nm' tape' _ => hpres c hc nm' tape')
      ((occursInList_false_iff player iset children).mpr hno)
      (touch acts nm player iset) tape
    rw [hexp] at hmap
    rw [touch_lookup_self] at hmap
    have hg : ∀ (m : NodeMap),
        getNode acts m player iset = (dictLookup (m player) iset).getD (InfoSet.fresh acts) :=
      fun m => rfl
    cases hfin : dictLookup
        ((applyRegrets true player iset (children.map Prod.fst)
          (mccfrExplore acts np player true player iset children
            (touch acts nm player iset) tape).1
          (evAccum np
            ((getNode acts (touch acts nm player iset) player iset).strategy
              (children.map Prod.fst))
            (mccfrExplore acts np player true player iset children
              (touch acts nm player iset) tape).1)
          (mccfrExplore acts np player true player iset children
            (touch acts nm player iset) tape).2.1) player) iset with
    | none => rw [hfin] at hmap; simp at hmap
    | some w =>
      rw [hfin] at hmap
      simp at hmap
      rw [hg, hfin, hg, touch_lookup_self]
      simpa using hmap
  · intro child rest nm2 tape2 h
    simp [mccfrExplore, h]
  · intro strat v rs
    simp [evAccum]

theorem mccfr_prune_skip_witness :
    ((getNode ["P", "B"]
        (touch ["P", "B"]
          (fun _ => [("I", InfoSet.mk ["P", "B"]
            (fun b => if b = "P" then -300000 else 0) (fun _ => 0) false)])
          0 "I") 0 "I").regret_sum "P" ≤ regret_minimum) ∧
    (isExplored ((mccfrExplore ["P", "B"] 2 0 true 0 "I"
        [("P", GameTree.terminal [1, -1]), ("B", GameTree.terminal [-1, 1])]
        (touch ["P", "B"]
          (fun _ => [("I", InfoSet.mk ["P", "B"]
            (fun b => if b = "P" then -300000 else 0) (fun _ => 0) false)])
          0 "I") []).1) "P" = false ∧
    (getNode ["P", "B"]
        ((mccfr ["P", "B"] 2 0 true
          (.decision 0 "I"
            [("P", GameTree.terminal [1, -1]), ("B", GameTree.terminal [-1, 1])])
          (fun _ => [("I", InfoSet.mk ["P", "B"]
            (fun b => if b = "P" then -300000 else 0) (fun _ => 0) false)])
          []).2.1) 0 "I").regret_sum "P"
      = (getNode ["P", "B"]
          (touch ["P", "B"]
            (fun _ => [("I", InfoSet.mk ["P", "B"]
              (fun b => if b = "P" then -300000 else 0) (fun _ => 0) false)])
            0 "I") 0 "I").regret_sum "P" ∧
    (∀ (child : GameTree) (rest : List (Action × GameTree)) (nm2 : NodeMap) (tape2 : Tape),
      (getNode ["P", "B"] nm2 0 "I").regret_sum "P" ≤ regret_minimum →
      mccfrExplore ["P", "B"] 2 0 true 0 "I" (("P", child) :: rest) nm2 tape2
        = (("P", false, vecZero 2)
            :: (mccfrExplore ["P", "B"] 2 0 true 0 "I" rest nm2 tape2).1,
          (mccfrExplore ["P", "B"] 2 0 true 0 "I" rest nm2 tape2).2)) ∧
    (∀ (strat : Action → ℚ) (v : List ℚ) (rs : ExploreResults),
      evAccum 2 strat (("P", false, v) :: rs) = evAccum 2 strat rs)) := by
  constructor
  · norm_num [getNode, touch, dictLookup, InfoSet.fresh, regret_minimum]
  · exact mccfr_prune_skip ["P", "B"] 2 0 "I"
      [("P", GameTree.terminal [1, -1]), ("B", GameTree.terminal [-1, 1])]
      (fun _ => [("I", InfoSet.mk ["P", "B"]
        (fun b => if b = "P" then -300000 else 0) (fun _ => 0) false)])
      [] "P"
      (by intro c hc; simp at hc; rcases hc with h | h <;> simp [h, occursIn])
      (by simp)
      (by norm_num [getNode, touch, dictLookup, InfoSet.fresh, regret_minimum])

theorem evAccum_eq_evExplored (n : ℕ) (strat : Action → ℚ) (results : ExploreResults) :
    evAccum n strat results = evExplored n strat results := by
  unfold evAccum evExplored
  suffices h : ∀ (init : List ℚ) (rs : ExploreResults),
      List.foldl
        (fun acc r => if r.2.1 = true then vecAdd acc (vecScale (strat r.1) r.2.2) else acc)
        init rs
        = List.foldl (fun acc r => vecAdd acc (vecScale (strat r.1) r.2.2)) init
            (rs.filter (fun r => r.2.1)) by
    exact h (vecZero n) results
  intro init rs
  induction rs generalizing init with
  | nil => rfl
  | cons r rest ih =>
    by_cases h : r.2.1
    · simp [List.foldl_cons, List.filter_cons, h, ih]
    · simp [List.foldl_cons, List.filter_cons, h, ih]

/-- C9: with pruning on, at a traversing-player node the returned
expected value is the sum over the explored actions only of
`strategy[a]` times the child's utility vector, where the strategy is
the regret-matching distribution computed over all valid actions;
the probability mass of skipped actions is not redistributed, so on the
concrete input below (both actions at the pruning floor, hence a uniform
strategy whose weights sum to 1 but no explored action) the weights
actually used sum to `0 < 1` and the returned value is the zero
vector. -/
theorem mccfr_prune_ev_explored_only :
    (∀ (acts : List Action) (np player : ℕ) (iset : String)
      (children : List (Action × GameTree)) (nm : NodeMap) (tape : Tape),
      (mccfr acts np player true (.decision player iset children) nm tape).1
        = evExplored np
            ((getNode acts (touch acts nm player iset) player iset).strategy
              (children.map Prod.fst))
            ((mccfrExplore acts np player true player iset children
              (touch acts nm player iset) tape).1)) ∧
    ((((mccfrExplore ["P", "B"] 2 0 true 0 "I"
        [("P", GameTree.terminal [1, -1]), ("B", GameTree.terminal [-1, 1])]
        (fun _ => [("I", InfoSet.mk ["P", "B"] (fun _ => -300000) (fun _ => 0) false)])
        []).1.filter (fun r => r.2.1)).map
      (fun r => ((getNode ["P", "B"]
        (fun _ => [("I", InfoSet.mk ["P", "B"] (fun _ => -300000) (fun _ => 0) false)])
        0 "I").strategy ["P", "B"]) r.1)).sum = 0 ∧
    ((getNode ["P", "B"]
        (fun _ => [("I", InfoSet.mk ["P", "B"] (fun _ => -300000) (fun _ => 0) false)])
        0 "I").strategy ["P", "B"]) "P"
      + ((getNode ["P", "B"]
        (fun _ => [("I", InfoSet.mk ["P", "B"] (fun _ => -300000) (fun _ => 0) false)])
        0 "I").strategy ["P", "B"]) "B" = 1 ∧
    (0 : ℚ) < 1 ∧
    (mccfr ["P", "B"] 2 0 true
        (.decision 0 "I" [("P", GameTree.terminal [1, -1]), ("B", GameTree.terminal [-1, 1])])
        (fun _ => [("I", InfoSet.mk ["P", "B"] (fun _ => -300000) (fun _ => 0) false)])
        []).1 = [0, 0]) := by
  constructor
  · intro acts np player iset children nm tape
    rw [show (mccfr acts np player true (.decision player iset children) nm tape).1
        = evAccum np
            ((getNode acts (touch acts nm player iset) player iset).strategy
              (children.map Prod.fst))
            ((mccfrExplore acts np player true player iset children
              (touch acts nm player iset) tape).1) by
      simp [mccfr]]
    exact evAccum_eq_evExplored _ _ _
  · refine ⟨?_, ?_, by norm_num, ?_⟩ <;>
      norm_num [mccfr, mccfrExplore, touch, getNode, dictLookup, InfoSet.strategy,
        positivePart, vecZero, evAccum, regret_minimum, List.replicate]

/-! ### Expected-utility evaluation -/

theorem traverse_fold (acts : List Action) (np : ℕ) (mkState : List ℕ → GameTree) :
    ∀ (combos : List (List ℕ)) (nm : NodeMap) (init : List ℚ),
    combos.foldl
      (fun (st : List ℚ × NodeMap) c =>
        match traverse_tree acts np (mkState c) st.2 with
        | (u, nm1) => (vecAdd st.1 u, nm1))
      (init, nm)
      = ((traverseList acts np mkState combos nm).1.foldl vecAdd init,
         (traverseList acts np mkState combos nm).2) := by
  intro combos
  induction combos with
  | nil => intro nm init; simp [traverseList]
  | cons c rest ih =>
    intro nm init
    simp only [List.foldl_cons, traverseList]
    rw [ih]

theorem traverseChildren_foldl (acts : List Action) (np : ℕ) (strat : Action → ℚ) :
    ∀ (children : List (Action × GameTree)) (acc : List ℚ) (nm : NodeMap),
    traverseChildren acts np strat children acc nm
      = children.foldl
          (fun (st : List ℚ × NodeMap) c =>
            (vecAdd st.1 (vecScale (strat c.1) (traverse_tree acts np c.2 st.2).1),
             (traverse_tree acts np c.2 st.2).2))
          (acc, nm) := by
  intro children
  induction children with
  | nil => intro acc nm; simp [traverseChildren]
  | cons c rest ih =>
    intro acc nm
    obtain ⟨a, child⟩ := c
    simp only [List.foldl_cons, traverseChildren]
    rw [ih]

/-- C8: `expected_utility` enumerates every distinct assignment of dealt
cards — the deduplicated length-`num_cards` permutations of the card
list — traverses the game tree once per assignment under the average
strategy (each decision node weighting each child's utility vector by
the `avg_strategy` probability of its action), and returns one
`num_players`-th... more precisely the sum of the per-assignment utility
vectors divided by the number of distinct assignments: their arithmetic
mean. -/
theorem expected_utility_mean (acts : List Action) (np : ℕ)
    (mkState : List ℕ → GameTree) (numCards : ℕ) (cards : List ℕ) (nm : NodeMap) :
    ((kperms numCards cards).dedup).Nodup ∧
    (∀ c, c ∈ (kperms numCards cards).dedup ↔ c ∈ kperms numCards cards) ∧
    expected_utility acts np mkState numCards cards nm
      = (vecScale (1 / (((kperms numCards cards).dedup).length : ℚ))
          (vecSum np (traverseList acts np mkState ((kperms numCards cards).dedup) nm).1),
        (traverseList acts np mkState ((kperms numCards cards).dedup) nm).2) ∧
    (∀ (turn : ℕ) (iset : String) (children : List (Action × GameTree)) (nm' : NodeMap),
      traverse_tree acts np (.decision turn iset children) nm'
        = children.foldl
            (fun (st : List ℚ × NodeMap) c =>
              (vecAdd st.1 (vecScale
                (((getNode acts (touch acts nm' turn iset) turn iset).avg_strategy) c.1)
                (traverse_tree acts np c.2 st.2).1),
               (traverse_tree acts np c.2 st.2).2))
            (vecZero np, touch acts nm' turn iset)) := by
  refine ⟨List.nodup_dedup _, fun c => List.mem_dedup, ?_, ?_⟩
  · simp only [expected_utility]
    rw [traverse_fold]
    rfl
  · intro turn iset children nm'
    rw [show traverse_tree acts np (.decision turn iset children) nm'
        = traverseChildren acts np
            ((getNode acts (touch acts nm' turn iset) turn iset).avg_strategy)
            children (vecZero np) (touch acts nm' turn iset) by
      simp [traverse_tree]]
    exact traverseChildren_foldl acts np _ children _ _

end Pluribus
